import Mathlib

/-!
Verification development for the semantic-document-search backend.

Shallow embedding of the ingestion and retrieval pipeline:
  * `TextExtractionService.chunkText` (window-sliding chunker),
  * the batched embedding loop of `DocumentProcessingService.processDocument`
    together with its response-shape normalization,
  * the `ON CONFLICT (document_id, chunk_index) DO UPDATE` upsert of
    `DocumentProcessingService.#saveChunksWithEmbeddings`,
  * `SearchService.#vectorSimilaritySearch` and
    `SearchService.#performHybridSearch` (the SQL query semantics),
  * the `RedisClient` cache wrapper (fail-open reads and writes) and the
    cache interaction of `SearchService.search` / `SearchService.hybridSearch`,
  * the cache-invalidation sweeps of `DocumentProcessingService`.

Strings manipulated character-wise by the chunker are modelled as `List Char`;
JavaScript `String.prototype.slice` / `lastIndexOf` / `trim` are modelled
explicitly (including negative-index slicing, which the chunker can hit).
Numeric scores are modelled as `ℚ`; the pgvector `<=>` operator and the
PostgreSQL full-text functions are external collaborators and enter as
function parameters.
-/

namespace SemanticSearch

/-! ## 1. Chunker: `TextExtractionService.chunkText` -/

/-- Whitespace as trimmed by JavaScript `String.prototype.trim` (ASCII part). -/
def isJsWs (c : Char) : Bool :=
  c = ' ' || c = '\t' || c = '\n' || c = '\r' || c = '\x0b' || c = '\x0c'

/-- JavaScript `String.prototype.trim`: drop leading and trailing whitespace. -/
def jsTrim (l : List Char) : List Char :=
  ((l.dropWhile isJsWs).reverse.dropWhile isJsWs).reverse

/-- Clamp a JavaScript slice index (possibly negative) into `[0, n]`. -/
def jsSliceIdx (n : ℕ) (i : ℤ) : ℕ :=
  if i < 0 then ((n : ℤ) + i).toNat else min i.toNat n

/-- JavaScript `String.prototype.slice(a, b)` on a character list. -/
def jsSlice (l : List Char) (a b : ℤ) : List Char :=
  let lo := jsSliceIdx l.length a
  let hi := jsSliceIdx l.length b
  (l.drop lo).take (hi - lo)

/-- JavaScript `String.prototype.lastIndexOf` for a single character:
the greatest index holding `c`, or `-1`. -/
def lastIndexOfChar (c : Char) : List Char → ℤ
  | [] => -1
  | x :: xs =>
    let r := lastIndexOfChar c xs
    if 0 ≤ r then r + 1 else if x = c then 0 else -1

/-- The window `end` computed at the top of each loop iteration:
`end = Math.min(start + chunkSize, text.length)`. -/
def windowEnd (text : List Char) (chunkSize : ℕ) (start : ℤ) : ℤ :=
  min (start + chunkSize) (text.length : ℤ)

/-- Models `boundary = Math.max(chunk.lastIndexOf('.'), chunk.lastIndexOf('\n'))`
where `chunk = text.slice(start, end)`. -/
def boundaryOf (text : List Char) (chunkSize : ℕ) (start : ℤ) : ℤ :=
  let chunk := jsSlice text start (windowEnd text chunkSize start)
  max (lastIndexOfChar '.' chunk) (lastIndexOfChar '\n' chunk)

/-- The next value of the `start` pointer after one iteration of the
`while (start < text.length)` loop of `chunkText`.  The comparison
`boundary > chunkSize * 0.5` is exact over the integers as `2*boundary >
chunkSize` (both sides are small integers, `* 0.5` is exact in floats). -/
def chunkNext (text : List Char) (chunkSize overlap : ℕ) (start : ℤ) : ℤ :=
  if windowEnd text chunkSize start < (text.length : ℤ) then
    if 2 * boundaryOf text chunkSize start > (chunkSize : ℤ) then
      start + boundaryOf text chunkSize start + 1 - overlap
    else windowEnd text chunkSize start - overlap
  else windowEnd text chunkSize start

/-- The chunk pushed (`chunks.push(chunk.trim())`) by one loop iteration. -/
def chunkEmit (text : List Char) (chunkSize overlap : ℕ) (start : ℤ) : List Char :=
  if windowEnd text chunkSize start < (text.length : ℤ) then
    if 2 * boundaryOf text chunkSize start > (chunkSize : ℤ) then
      jsTrim (jsSlice text start (start + boundaryOf text chunkSize start + 1))
    else jsTrim (jsSlice text start (windowEnd text chunkSize start))
  else jsTrim (jsSlice text start (windowEnd text chunkSize start))

/-- The `while (start < text.length)` loop, fuelled: `none` means the fuel ran
out (the concrete JavaScript loop would still be running). -/
def chunkLoop (text : List Char) (chunkSize overlap : ℕ) :
    ℕ → ℤ → List (List Char) → Option (List (List Char))
  | 0, start, acc =>
    if start < (text.length : ℤ) then none else some acc.reverse
  | f + 1, start, acc =>
    if start < (text.length : ℤ) then
      chunkLoop text chunkSize overlap f (chunkNext text chunkSize overlap start)
        (chunkEmit text chunkSize overlap start :: acc)
    else some acc.reverse

/-- Models `TextExtractionService.chunkText`.  The short-text path returns `[text]`
unchanged (before any trimming or filtering); the loop path collects trimmed
windows and finally filters `chunk.length > 0`.  Fuel `text.length +
chunkSize + 2` is generous: whenever the JavaScript loop terminates at all
in that many iterations, the model returns `some`. -/
def chunkText (text : List Char) (chunkSize overlap : ℕ) : Option (List (List Char)) :=
  if text.length ≤ chunkSize then some [text]
  else
    (chunkLoop text chunkSize overlap (text.length + chunkSize + 2) 0 []).map
      (fun cs => cs.filter (fun c => c.length > 0))

/-! ### Chunker lemmas -/

lemma dropWhile_dropWhile (p : Char → Bool) (l : List Char) :
    (l.dropWhile p).dropWhile p = l.dropWhile p := by
  induction l with
  | nil => rfl
  | cons x xs ih =>
    by_cases h : p x
    · simp [List.dropWhile, h, ih]
    · simp [List.dropWhile, h]

lemma jsTrim_no_trailing (s : List Char) :
    (jsTrim s).reverse.dropWhile isJsWs = (jsTrim s).reverse := by
  unfold jsTrim
  rw [List.reverse_reverse]
  exact dropWhile_dropWhile _ _

lemma jsTrim_no_leading (s : List Char) :
    (jsTrim s).dropWhile isJsWs = jsTrim s := by
  rcases hc : jsTrim s with _ | ⟨x, rest⟩
  · rfl
  · -- `jsTrim s` is a suffix-trimmed copy of `A := s.dropWhile isJsWs`,
    -- hence a prefix of `A`; its head is the head of `A`, which is not
    -- whitespace.
    have hA : s.dropWhile isJsWs = jsTrim s ++
        (((s.dropWhile isJsWs).reverse.takeWhile isJsWs).reverse) :=
      calc s.dropWhile isJsWs
          = ((s.dropWhile isJsWs).reverse).reverse := (List.reverse_reverse _).symm
        _ = (((s.dropWhile isJsWs).reverse.takeWhile isJsWs) ++
              ((s.dropWhile isJsWs).reverse.dropWhile isJsWs)).reverse := by
            rw [List.takeWhile_append_dropWhile]
        _ = jsTrim s ++ (((s.dropWhile isJsWs).reverse.takeWhile isJsWs).reverse) := by
            rw [List.reverse_append]; rfl
    have hx : isJsWs x = false := by
      have hhead := List.head?_dropWhile_not isJsWs s
      rw [hA, hc] at hhead
      simpa using hhead
    simp [List.dropWhile, hx]

lemma chunkEmit_isTrim (text : List Char) (cs ov : ℕ) (start : ℤ) :
    ∃ s, chunkEmit text cs ov start = jsTrim s := by
  unfold chunkEmit
  split_ifs <;> exact ⟨_, rfl⟩

lemma chunkLoop_mem_trim (text : List Char) (cs ov : ℕ) :
    ∀ (fuel : ℕ) (start : ℤ) (acc out : List (List Char)),
      (∀ c ∈ acc, ∃ s, c = jsTrim s) →
      chunkLoop text cs ov fuel start acc = some out →
      ∀ c ∈ out, ∃ s, c = jsTrim s := by
  intro fuel
  induction fuel with
  | zero =>
    intro start acc out hacc hrun c hc
    rw [chunkLoop] at hrun
    split_ifs at hrun
    rw [Option.some_inj] at hrun
    subst hrun
    exact hacc c (List.mem_reverse.mp hc)
  | succ f ih =>
    intro start acc out hacc hrun c hc
    rw [chunkLoop] at hrun
    split_ifs at hrun
    · refine ih _ _ _ ?_ hrun c hc
      intro d hd
      rcases List.mem_cons.mp hd with rfl | hd
      · exact chunkEmit_isTrim text cs ov start
      · exact hacc d hd
    · rw [Option.some_inj] at hrun
      subst hrun
      exact hacc c (List.mem_reverse.mp hc)

/-- With `2 * overlap ≤ chunkSize`, every loop iteration strictly advances
the start pointer. -/
lemma chunkNext_gt (text : List Char) (cs ov : ℕ) (h1 : 0 < cs)
    (h2 : 2 * ov ≤ cs) (start : ℤ) (hs0 : 0 ≤ start)
    (hsn : start < (text.length : ℤ)) :
    start < chunkNext text cs ov start := by
  unfold chunkNext windowEnd
  rcases le_or_lt (start + cs) (text.length : ℤ) with hle | hlt
  · rw [min_eq_left hle]
    split_ifs with he hb <;> omega
  · rw [min_eq_right (le_of_lt hlt)]
    split_ifs with he hb <;> omega

lemma chunkLoop_terminates (text : List Char) (cs ov : ℕ) (h1 : 0 < cs)
    (h2 : 2 * ov ≤ cs) :
    ∀ (fuel : ℕ) (start : ℤ) (acc : List (List Char)), 0 ≤ start →
      (text.length : ℤ) ≤ start + fuel →
      ∃ out, chunkLoop text cs ov fuel start acc = some out := by
  intro fuel
  induction fuel with
  | zero =>
    intro start acc hs0 hsf
    rw [chunkLoop]
    rw [if_neg (by omega)]
    exact ⟨acc.reverse, rfl⟩
  | succ f ih =>
    intro start acc hs0 hsf
    rw [chunkLoop]
    split_ifs with h
    · have hnext := chunkNext_gt text cs ov h1 h2 start hs0 h
      exact ih _ _ (by omega) (by omega)
    · exact ⟨acc.reverse, rfl⟩

/-! ### Chunker claims -/

/-- C7: for every `text` with `len(text) <= targetSize`,
`chunkText(text, targetSize, overlap)` returns exactly the single-element
sequence `[text]`, with `text` unchanged. -/
theorem chunkText_short_returns_singleton (text : List Char) (cs ov : ℕ)
    (h : text.length ≤ cs) : chunkText text cs ov = some [text] := by
  unfold chunkText
  rw [if_pos h]

theorem chunkText_short_returns_singleton_witness :
    ("hi".toList.length ≤ 1000) ∧ chunkText "hi".toList 1000 200 = some ["hi".toList] :=
  ⟨by decide, chunkText_short_returns_singleton "hi".toList 1000 200 (by decide)⟩

/-- C6 counterexample: with `targetSize = 10` and `overlap = 9`
(so `0 ≤ overlap < targetSize` as the claim requires), on the text
`"abcdefg.ijklmnopq"` the first loop iteration moves the start pointer
from `0` to `-1` (the sentence boundary at index 7 lies past the midpoint
and `boundary + 1 - overlap = -1`), the next iteration moves it back to
`0`, and the loop never terminates: the fuelled model exhausts any fuel
(`chunkText` returns `none`).  The start pointer does not strictly
increase, refuting the claim as stated. -/
theorem chunkText_nonadvancing_counterexample :
    (0 ≤ 9 ∧ 9 < 10) ∧
    chunkNext "abcdefg.ijklmnopq".toList 10 9 0 = -1 ∧
    chunkNext "abcdefg.ijklmnopq".toList 10 9 (-1) = 0 ∧
    chunkText "abcdefg.ijklmnopq".toList 10 9 = none := by
  decide

/-- C6 (amended): for every text, `targetSize > 0` and overlap with
`2 * overlap ≤ targetSize`, the start pointer strictly increases on every
loop iteration, and `chunkText` terminates (the fuelled model returns
`some`).  For `targetSize/2 < overlap < targetSize` this fails: a sentence
boundary just past the window midpoint can move the start pointer
backwards, producing a non-terminating loop. -/
theorem chunkText_terminates_of_small_overlap (text : List Char) (cs ov : ℕ)
    (h1 : 0 < cs) (h2 : 2 * ov ≤ cs) :
    (∀ start : ℤ, 0 ≤ start → start < (text.length : ℤ) →
      start < chunkNext text cs ov start) ∧
    ∃ out, chunkText text cs ov = some out := by
  constructor
  · intro start hs0 hsn
    exact chunkNext_gt text cs ov h1 h2 start hs0 hsn
  · unfold chunkText
    split_ifs with h
    · exact ⟨[text], rfl⟩
    · obtain ⟨out, hout⟩ := chunkLoop_terminates text cs ov h1 h2
        (text.length + cs + 2) 0 [] le_rfl (by push_cast; omega)
      exact ⟨_, by rw [hout]; rfl⟩

theorem chunkText_terminates_of_small_overlap_witness :
    (0 < 10 ∧ 2 * 5 ≤ 10) ∧
    (0 : ℤ) < chunkNext "0123456789ab".toList 10 5 0 ∧
    (chunkText "0123456789ab".toList 10 5).isSome = true := by
  refine ⟨by decide, ?_, ?_⟩
  · exact (chunkText_terminates_of_small_overlap "0123456789ab".toList 10 5
      (by decide) (by decide)).1 0 (by decide) (by decide)
  · obtain ⟨out, hout⟩ := (chunkText_terminates_of_small_overlap
      "0123456789ab".toList 10 5 (by decide) (by decide)).2
    rw [hout]; rfl

/-- C8 counterexample: the short-text path returns the text unchanged,
before any trimming or filtering.  For the all-whitespace text `" "`
(with the service's default `targetSize = 1000`, `overlap = 200`),
`chunkText` returns `some [[' ']]`: the emitted chunk is not trimmed, and
it is empty after trimming yet still appears in the output. -/
theorem chunkText_untrimmed_counterexample :
    chunkText [' '] 1000 200 = some [[' ']] ∧ jsTrim [' '] = [] := by
  decide

/-- C8 (amended): on the window-sliding path (`len(text) > targetSize`),
every chunk in the output is trimmed of leading and trailing whitespace
(its first and last characters are not whitespace) and no chunk that is
empty after trimming appears.  The short-text path (`len(text) <=
targetSize`) returns the text unchanged, untrimmed. -/
theorem chunkText_long_chunks_trimmed (text : List Char) (cs ov : ℕ)
    (out : List (List Char)) (hlen : cs < text.length)
    (hout : chunkText text cs ov = some out) :
    ∀ c ∈ out, c ≠ [] ∧ c.dropWhile isJsWs = c ∧
      c.reverse.dropWhile isJsWs = c.reverse := by
  unfold chunkText at hout
  rw [if_neg (by omega)] at hout
  obtain ⟨l, hl, rfl⟩ := Option.map_eq_some'.mp hout
  intro c hc
  obtain ⟨hcl, hclen⟩ := List.mem_filter.mp hc
  obtain ⟨s, rfl⟩ := chunkLoop_mem_trim text cs ov _ _ _ _ (by simp) hl c hcl
  refine ⟨?_, jsTrim_no_leading s, jsTrim_no_trailing s⟩
  intro hnil
  rw [hnil] at hclen
  simp at hclen

theorem chunkText_long_chunks_trimmed_witness :
    (2 < "a b".toList.length) ∧
    chunkText "a b".toList 2 1 = some [['a'], ['b']] ∧
    ∀ c ∈ [['a'], ['b']], c ≠ [] ∧ c.dropWhile isJsWs = c ∧
      c.reverse.dropWhile isJsWs = c.reverse :=
  ⟨by decide, by decide,
    chunkText_long_chunks_trimmed "a b".toList 2 1 [['a'], ['b']]
      (by decide) (by decide)⟩

/-! ## 2. Batched embedding generation:
`DocumentProcessingService.processDocument` -/

/-- A raw per-chunk embedding as returned by the provider: JavaScript value
shapes `null`/`undefined`, a single number, a flat number array, or a
nested array (the declared TypeScript type of one response element). -/
inductive RawEmbedding where
  | null : RawEmbedding
  | num : ℚ → RawEmbedding
  | arr : List ℚ → RawEmbedding
  | nested : List (List ℚ) → RawEmbedding
deriving DecidableEq, Repr

/-- Normalization of one raw embedding (`processDocument`, the
`chunkEntities` construction): `null`/`undefined` is a hard failure; an
array whose first element is an array is flattened one level; a flat array
is kept; a single number is wrapped; an empty normalized result is a hard
failure. -/
def normalizeEmbedding : RawEmbedding → Option (List ℚ)
  | .null => none
  | .num x => some [x]
  | .arr xs => if xs.isEmpty then none else some xs
  | .nested [] => none
  | .nested (xs :: rest) =>
    if ((xs :: rest).flatten).isEmpty then none else some ((xs :: rest).flatten)

/-- A chunk row as assembled for one batch element (document identity is
fixed per run and omitted). -/
structure ChunkEntity where
  chunkText : String
  chunkIndex : ℕ
  embedding : List ℚ
deriving DecidableEq, Repr

/-- All-or-nothing map: the first element on which `f` fails aborts the
whole traversal (the `batch.map` callback throws on the first bad
embedding). -/
def mapOption (f : α → Option β) : List α → Option (List β)
  | [] => some []
  | x :: xs =>
    match f x with
    | none => none
    | some y =>
      match mapOption f xs with
      | none => none
      | some ys => some (y :: ys)

/-- Process one batch: the length check
(`embeddings.length !== batch.length`) followed by per-element
normalization; any failure fails the whole batch before anything is
written (`#saveChunksWithEmbeddings` is only reached with fully built
entities).  `startIdx` is the global index `i` of the batch's first chunk
(`chunkIndex: i + index`). -/
def processBatch (startIdx : ℕ) (batch : List String)
    (resp : List RawEmbedding) : Option (List ChunkEntity) :=
  if resp.length ≠ batch.length then none
  else
    mapOption (fun p =>
      (normalizeEmbedding p.2.2).map fun e =>
        { chunkText := p.2.1, chunkIndex := startIdx + p.1, embedding := e })
      ((batch.zip resp).enum)

/-- Models the `chunks.slice(i, i + batchSize)` partitioning, preserving order.
Matches the source loop for every `batchSize ≥ 1` (the service uses 10). -/
def makeBatchesAux (batchSize : ℕ) : ℕ → List String → List (List String)
  | _, [] => []
  | 0, _ :: _ => []
  | fuel + 1, x :: xs =>
    (x :: xs.take (batchSize - 1)) ::
      makeBatchesAux batchSize fuel (xs.drop (batchSize - 1))

def makeBatches (batchSize : ℕ) (l : List String) : List (List String) :=
  makeBatchesAux batchSize l.length l

/-- The sequential batch loop: batches are processed in increasing index
order; a successful batch is committed (its rows written) before the next
batch starts; the first failing batch aborts the run.  Returns the
committed rows and `some k` for the first failing batch index `k` (`none`
if every batch succeeded). -/
def runBatchLoop (resp : ℕ → List RawEmbedding) :
    ℕ → ℕ → List (List String) → List ChunkEntity × Option ℕ
  | _, _, [] => ([], none)
  | k, start, b :: bs =>
    match processBatch start b (resp k) with
    | none => ([], some k)
    | some es =>
      let rest := runBatchLoop resp (k + 1) (start + b.length) bs
      (es ++ rest.1, rest.2)

/-- The embedding phase of `processDocument`: partition the chunks into
fixed-size batches and run the batch loop. -/
def processDocumentBatches (chunks : List String) (batchSize : ℕ)
    (resp : ℕ → List RawEmbedding) : List ChunkEntity × Option ℕ :=
  runBatchLoop resp 0 0 (makeBatches batchSize chunks)

/-- Global chunk index at which a run of batches starts. -/
def sumLen (l : List (List String)) : ℕ := (l.map List.length).sum

/-! ### Batch lemmas -/

lemma mapOption_eq_none_iff (f : α → Option β) :
    ∀ l : List α, mapOption f l = none ↔ ∃ a ∈ l, f a = none := by
  intro l
  induction l with
  | nil => simp [mapOption]
  | cons x xs ih =>
    rw [mapOption]
    cases hfx : f x with
    | none => simp [hfx]
    | some y =>
      cases hxs : mapOption f xs with
      | none =>
        simp only [hfx, hxs]
        constructor
        · intro _
          obtain ⟨a, ha, hfa⟩ := ih.mp hxs
          exact ⟨a, List.mem_cons_of_mem x ha, hfa⟩
        · intro _
          trivial
      | some ys =>
        simp only [hfx]
        constructor
        · intro h
          exact absurd h (by simp)
        · rintro ⟨a, ha, hfa⟩
          rcases List.mem_cons.mp ha with rfl | ha2
          · exact absurd hfa (by simp [hfx])
          · exact absurd (ih.mpr ⟨a, ha2, hfa⟩) (by simp [hxs])

lemma mapOption_mem (f : α → Option β) :
    ∀ (l : List α) (es : List β), mapOption f l = some es →
      ∀ e ∈ es, ∃ a ∈ l, f a = some e := by
  intro l
  induction l with
  | nil =>
    intro es h e he
    rw [mapOption, Option.some_inj] at h
    subst h
    simp at he
  | cons x xs ih =>
    intro es h e he
    rw [mapOption] at h
    cases hfx : f x with
    | none => rw [hfx] at h; exact Option.noConfusion h
    | some y =>
      rw [hfx] at h
      cases hxs : mapOption f xs with
      | none => rw [hxs] at h; exact Option.noConfusion h
      | some ts =>
        rw [hxs, Option.some_inj] at h
        subst h
        rcases List.mem_cons.mp he with rfl | he2
        · exact ⟨x, List.mem_cons_self x xs, hfx⟩
        · obtain ⟨a, ha, hfa⟩ := ih ts hxs e he2
          exact ⟨a, List.mem_cons_of_mem x ha, hfa⟩

/-- A batch fails exactly when the response length mismatches the batch
length or some individual embedding fails to normalize. -/
lemma processBatch_none_iff (s : ℕ) (b : List String) (r : List RawEmbedding) :
    processBatch s b r = none ↔
      r.length ≠ b.length ∨ ∃ x ∈ r, normalizeEmbedding x = none := by
  by_cases hlen : r.length ≠ b.length
  · rw [processBatch, if_pos hlen]
    simp [hlen]
  · push_neg at hlen
    rw [processBatch, if_neg (by omega), mapOption_eq_none_iff]
    constructor
    · rintro ⟨p, hp, hfp⟩
      right
      obtain ⟨hip, hxp⟩ := List.mem_enum hp
      refine ⟨p.2.2, ?_, by simpa using hfp⟩
      have hmem : p.2 ∈ b.zip r := by
        rw [hxp]
        exact List.getElem_mem hip
      exact (List.mem_zip hmem).2
    · rintro (h | ⟨x, hx, hnx⟩)
      · omega
      · obtain ⟨i, hi, rfl⟩ := List.mem_iff_getElem.mp hx
        have hzl : i < (b.zip r).length := by
          rw [List.length_zip]
          omega
        have henum : i < (b.zip r).enum.length := by simpa using hzl
        have hval : (b.zip r).enum[i] = (i, (b.zip r)[i]) :=
          List.getElem_enum (b.zip r) (i := i) (h := henum)
        refine ⟨(i, (b.zip r)[i]), ?_, ?_⟩
        · rw [← hval]
          exact List.getElem_mem henum
        · have hsnd : ((b.zip r)[i]).2 = r[i] := by
            simp [List.getElem_zip]
          simp [hsnd, hnx]

/-- Entities built for a batch carry global chunk indices inside the
batch's index range. -/
lemma processBatch_some_bounds (s : ℕ) (b : List String)
    (r : List RawEmbedding) (es : List ChunkEntity)
    (h : processBatch s b r = some es) :
    ∀ e ∈ es, s ≤ e.chunkIndex ∧ e.chunkIndex < s + b.length := by
  intro e he
  by_cases hlen : r.length ≠ b.length
  · rw [processBatch, if_pos hlen] at h
    exact Option.noConfusion h
  · rw [processBatch, if_neg hlen] at h
    obtain ⟨p, hp, hfp⟩ := mapOption_mem _ _ _ h e he
    obtain ⟨v, hv, rfl⟩ := Option.map_eq_some'.mp hfp
    obtain ⟨hip, _⟩ := List.mem_enum hp
    rw [List.length_zip] at hip
    simp only []
    omega

/-- The batch loop commits every batch before the first failing one and
stops at the first failing batch with nothing of it committed. -/
lemma runBatchLoop_fail (resp : ℕ → List RawEmbedding) :
    ∀ (k : ℕ) (bs : List (List String)) (k0 start : ℕ),
      k < bs.length →
      (∀ j, j < k → ∃ es, processBatch (start + sumLen (bs.take j))
        (bs.getD j []) (resp (k0 + j)) = some es) →
      processBatch (start + sumLen (bs.take k)) (bs.getD k []) (resp (k0 + k)) = none →
      (runBatchLoop resp k0 start bs).2 = some (k0 + k) ∧
      (∀ j, j < k → ∀ es, processBatch (start + sumLen (bs.take j))
        (bs.getD j []) (resp (k0 + j)) = some es →
        ∀ e ∈ es, e ∈ (runBatchLoop resp k0 start bs).1) ∧
      (∀ e ∈ (runBatchLoop resp k0 start bs).1,
        start ≤ e.chunkIndex ∧ e.chunkIndex < start + sumLen (bs.take k)) := by
  intro k
  induction k with
  | zero =>
    intro bs k0 start hk hsucc hfail
    rcases bs with _ | ⟨b, rest⟩
    · simp at hk
    · simp only [List.take_zero, sumLen, List.map_nil, List.sum_nil,
        Nat.add_zero, List.getD_cons_zero] at hfail
      rw [runBatchLoop, hfail]
      exact ⟨rfl, fun j hj => absurd hj (by omega), fun e he => absurd he (by simp)⟩
  | succ k ih =>
    intro bs k0 start hk hsucc hfail
    rcases bs with _ | ⟨b, rest⟩
    · simp at hk
    · obtain ⟨es0, h0⟩ := hsucc 0 (by omega)
      simp only [List.take_zero, sumLen, List.map_nil, List.sum_nil,
        Nat.add_zero, List.getD_cons_zero] at h0
      have hsum : ∀ j : ℕ, sumLen ((b :: rest).take (j + 1)) =
          b.length + sumLen (rest.take j) := by
        intro j
        simp [sumLen, List.take_succ_cons]
      have hsucc2 : ∀ j, j < k → ∃ es, processBatch
          (start + b.length + sumLen (rest.take j)) (rest.getD j [])
          (resp (k0 + 1 + j)) = some es := by
        intro j hj
        obtain ⟨es, hes⟩ := hsucc (j + 1) (by omega)
        rw [hsum j, List.getD_cons_succ] at hes
        have harith : k0 + (j + 1) = k0 + 1 + j := by omega
        rw [harith, ← Nat.add_assoc] at hes
        exact ⟨es, hes⟩
      have hfail2 : processBatch (start + b.length + sumLen (rest.take k))
          (rest.getD k []) (resp (k0 + 1 + k)) = none := by
        rw [hsum k, List.getD_cons_succ] at hfail
        have harith : k0 + (k + 1) = k0 + 1 + k := by omega
        rw [harith, ← Nat.add_assoc] at hfail
        exact hfail
      obtain ⟨ih1, ih2, ih3⟩ := ih rest (k0 + 1) (start + b.length)
        (by simpa using hk) hsucc2 hfail2
      have hloop : runBatchLoop resp k0 start (b :: rest) =
          (es0 ++ (runBatchLoop resp (k0 + 1) (start + b.length) rest).1,
           (runBatchLoop resp (k0 + 1) (start + b.length) rest).2) := by
        rw [runBatchLoop, h0]
      refine ⟨?_, ?_, ?_⟩
      · rw [hloop]
        simpa [Nat.add_assoc, Nat.add_comm 1 k] using ih1
      · intro j hj es hes e he
        rw [hloop]
        simp only [List.mem_append]
        rcases Nat.eq_zero_or_pos j with rfl | hjpos
        · left
          simp only [List.take_zero, sumLen, List.map_nil, List.sum_nil,
            Nat.add_zero, List.getD_cons_zero] at hes
          rw [h0, Option.some_inj] at hes
          subst hes
          exact he
        · right
          obtain ⟨j2, rfl⟩ : ∃ j2, j = j2 + 1 := ⟨j - 1, by omega⟩
          rw [hsum j2, List.getD_cons_succ] at hes
          have harith : k0 + (j2 + 1) = k0 + 1 + j2 := by omega
          rw [harith, ← Nat.add_assoc] at hes
          exact ih2 j2 (by omega) es hes e he
      · intro e he
        rw [hloop] at he
        rcases List.mem_append.mp he with h1 | h2
        · have := processBatch_some_bounds _ _ _ _ h0 e h1
          rw [hsum k]
          omega
        · have := ih3 e h2
          rw [hsum k]
          omega

/-- C3: if every batch before `k` succeeds and batch `k`'s response has a
length mismatch or an embedding that fails to normalize, then batch `k`
fails as a whole: the run aborts at batch `k`, every row of the committed
batches `0..k-1` is still committed, and no committed row has a chunk
index in or beyond batch `k`'s range. -/
theorem processDocument_batch_failure (chunks : List String) (batchSize : ℕ)
    (resp : ℕ → List RawEmbedding) (k : ℕ)
    (hk : k < (makeBatches batchSize chunks).length)
    (hsucc : ∀ j, j < k → ∃ es, processBatch
      (sumLen ((makeBatches batchSize chunks).take j))
      ((makeBatches batchSize chunks).getD j []) (resp j) = some es)
    (hfail : (resp k).length ≠ ((makeBatches batchSize chunks).getD k []).length ∨
      ∃ x ∈ resp k, normalizeEmbedding x = none) :
    (processDocumentBatches chunks batchSize resp).2 = some k ∧
    (∀ j, j < k → ∀ es, processBatch
      (sumLen ((makeBatches batchSize chunks).take j))
      ((makeBatches batchSize chunks).getD j []) (resp j) = some es →
      ∀ e ∈ es, e ∈ (processDocumentBatches chunks batchSize resp).1) ∧
    (∀ e ∈ (processDocumentBatches chunks batchSize resp).1,
      e.chunkIndex < sumLen ((makeBatches batchSize chunks).take k)) := by
  have hfail2 : processBatch (0 + sumLen ((makeBatches batchSize chunks).take k))
      ((makeBatches batchSize chunks).getD k []) (resp (0 + k)) = none := by
    rw [Nat.zero_add, Nat.zero_add, processBatch_none_iff]
    exact hfail
  obtain ⟨h1, h2, h3⟩ := runBatchLoop_fail resp k (makeBatches batchSize chunks) 0 0 hk
    (by simpa using hsucc) hfail2
  refine ⟨by simpa using h1, ?_, ?_⟩
  · intro j hj es hes e he
    exact h2 j hj es (by simpa using hes) e he
  · intro e he
    have := h3 e he
    omega

/-- Concrete provider responses used by the C3 witness: batch 0 succeeds
(a scalar and a flat vector), batch 1 returns a null embedding. -/
def respC3 : ℕ → List RawEmbedding :=
  fun k => if k = 0 then [.num 1, .arr [2, 3]] else [.null]

theorem processDocument_batch_failure_witness :
    (processDocumentBatches ["a", "b", "c"] 2 respC3).2 = some 1 ∧
    ({ chunkText := "a", chunkIndex := 0, embedding := [1] } : ChunkEntity) ∈
      (processDocumentBatches ["a", "b", "c"] 2 respC3).1 ∧
    ∀ e ∈ (processDocumentBatches ["a", "b", "c"] 2 respC3).1,
      e.chunkIndex < sumLen ((makeBatches 2 ["a", "b", "c"]).take 1) := by
  obtain ⟨h1, h2, h3⟩ := processDocument_batch_failure ["a", "b", "c"] 2 respC3 1
    (by decide)
    (fun j hj => by
      interval_cases j
      exact ⟨[{ chunkText := "a", chunkIndex := 0, embedding := [1] },
              { chunkText := "b", chunkIndex := 1, embedding := [2, 3] }], by decide⟩)
    (by decide)
  exact ⟨h1,
    h2 0 (by decide)
      [{ chunkText := "a", chunkIndex := 0, embedding := [1] },
       { chunkText := "b", chunkIndex := 1, embedding := [2, 3] }]
      (by decide)
      { chunkText := "a", chunkIndex := 0, embedding := [1] } (by decide),
    h3⟩

/-! ## 3. Vector store: upsert and the search queries of `SearchService` -/

/-- A row of `document_chunks`.  `embedding` is nullable; `metadata` is an
opaque serialized value. -/
structure ChunkRow where
  id : String
  documentId : String
  chunkText : String
  chunkIndex : ℕ
  embedding : Option (List ℚ)
  metadata : String
deriving DecidableEq, Repr

/-- A row of `documents` (the columns selected by the search queries). -/
structure DocRow where
  id : String
  title : String
  fileType : Option String
deriving DecidableEq, Repr

/-- One element of the result list built from a returned SQL row
(`chunk` and `document` sub-objects flattened). -/
structure SearchResult where
  chunkId : String
  chunkDocumentId : String
  chunkText : String
  chunkIndex : ℕ
  docId : String
  title : String
  fileType : Option String
  similarity : ℚ
  score : ℚ
deriving DecidableEq, Repr

/-- Models `FROM document_chunks dc JOIN documents d ON dc.document_id = d.id`. -/
def joinRows (chunks : List ChunkRow) (docs : List DocRow) :
    List (ChunkRow × DocRow) :=
  chunks.flatMap fun c =>
    (docs.filter fun d => d.id == c.documentId).map fun d => (c, d)

/-- The optional `AND dc.document_id = $n` clause. -/
def docFilterOk (docFilter : Option String) (c : ChunkRow) : Bool :=
  match docFilter with
  | some d => c.documentId == d
  | none => true

/-- Models `dc.embedding <=> $1::vector`: the pgvector cosine distance, an
external collaborator, applied to the row's (non-null) embedding.  `dist`
is the store's distance function. -/
def embDist (dist : List ℚ → List ℚ → ℚ) (qe : List ℚ) (c : ChunkRow) : ℚ :=
  dist (c.embedding.getD []) qe

/-- Row-to-result mapping of `#vectorSimilaritySearch`:
`similarity = score = 1 - (embedding <=> query)`. -/
def toSearchResult (dist : List ℚ → List ℚ → ℚ) (qe : List ℚ)
    (cd : ChunkRow × DocRow) : SearchResult :=
  { chunkId := cd.1.id
    chunkDocumentId := cd.1.documentId
    chunkText := cd.1.chunkText
    chunkIndex := cd.1.chunkIndex
    docId := cd.2.id
    title := cd.2.title
    fileType := cd.2.fileType
    similarity := 1 - embDist dist qe cd.1
    score := 1 - embDist dist qe cd.1 }

/-- Models `SearchService.#vectorSimilaritySearch`: rows with a non-null
embedding, the optional document filter, the threshold filter on
`1 - distance`, ordered by distance ascending (`ORDER BY dc.embedding <=>
$1::vector`), capped at `limit`. -/
def vectorSimilaritySearch (dist : List ℚ → List ℚ → ℚ)
    (chunks : List ChunkRow) (docs : List DocRow) (qe : List ℚ)
    (limit : ℕ) (threshold : ℚ) (docFilter : Option String) :
    List SearchResult :=
  let rows := joinRows chunks docs
  let candidates := rows.filter fun cd =>
    cd.1.embedding.isSome && docFilterOk docFilter cd.1 &&
      decide (threshold ≤ 1 - embDist dist qe cd.1)
  let sorted := candidates.insertionSort fun a b =>
    embDist dist qe a.1 ≤ embDist dist qe b.1
  (sorted.take limit).map (toSearchResult dist qe)

/-- Models `ts_rank(to_tsvector('english', dc.chunk_text),
plainto_tsquery('english', $2))`, an external PostgreSQL function:
`tsRank chunkText question`. -/
def combinedScore (dist : List ℚ → List ℚ → ℚ)
    (tsRank : String → String → ℚ) (qe : List ℚ) (question : String)
    (cd : ChunkRow × DocRow) : ℚ :=
  (7 / 10) * (1 - embDist dist qe cd.1) + (3 / 10) * tsRank cd.1.chunkText question

/-- Row-to-result mapping of `#performHybridSearch`: `similarity` is the
vector component, `score` the fixed 70/30 blend. -/
def toHybridResult (dist : List ℚ → List ℚ → ℚ)
    (tsRank : String → String → ℚ) (qe : List ℚ) (question : String)
    (cd : ChunkRow × DocRow) : SearchResult :=
  { chunkId := cd.1.id
    chunkDocumentId := cd.1.documentId
    chunkText := cd.1.chunkText
    chunkIndex := cd.1.chunkIndex
    docId := cd.2.id
    title := cd.2.title
    fileType := cd.2.fileType
    similarity := 1 - embDist dist qe cd.1
    score := combinedScore dist tsRank qe question cd }

/-- Models `SearchService.#performHybridSearch`: rows with a non-null embedding
that match the full-text query (`to_tsvector(...) @@ plainto_tsquery(...)`,
modelled by the external predicate `tsMatch chunkText question`), the
optional document filter, the threshold filter on the vector component
only, ordered by the 70/30 blend descending, capped at `limit`. -/
def performHybridSearch (dist : List ℚ → List ℚ → ℚ)
    (tsMatch : String → String → Bool) (tsRank : String → String → ℚ)
    (chunks : List ChunkRow) (docs : List DocRow) (qe : List ℚ)
    (question : String) (limit : ℕ) (threshold : ℚ)
    (docFilter : Option String) : List SearchResult :=
  let rows := joinRows chunks docs
  let candidates := rows.filter fun cd =>
    cd.1.embedding.isSome && tsMatch cd.1.chunkText question &&
      docFilterOk docFilter cd.1 &&
      decide (threshold ≤ 1 - embDist dist qe cd.1)
  let sorted := candidates.insertionSort fun a b =>
    combinedScore dist tsRank qe question b ≤ combinedScore dist tsRank qe question a
  (sorted.take limit).map (toHybridResult dist tsRank qe question)

/-! ### Similarity-search lemmas and claims -/

lemma vectorSimilaritySearch_eq (dist : List ℚ → List ℚ → ℚ)
    (chunks : List ChunkRow) (docs : List DocRow) (qe : List ℚ)
    (limit : ℕ) (threshold : ℚ) (docFilter : Option String) :
    vectorSimilaritySearch dist chunks docs qe limit threshold docFilter =
      ((((joinRows chunks docs).filter fun cd =>
          cd.1.embedding.isSome && docFilterOk docFilter cd.1 &&
            decide (threshold ≤ 1 - embDist dist qe cd.1)).insertionSort
        fun a b => embDist dist qe a.1 ≤ embDist dist qe b.1).take limit).map
        (toSearchResult dist qe) := rfl

/-- C1: pure similarity search returns at most `limit` results (and no
more than there are joined rows), sorted in descending score order; every
result is drawn from a joined row with a non-null embedding that matches
the document filter when given, and carries
`score = 1 - cosineDistance(rowEmbedding, queryEmbedding)` with
`score >= threshold`; conversely, when the limit does not truncate, every
qualifying row appears. -/
theorem vectorSimilaritySearch_spec (dist : List ℚ → List ℚ → ℚ)
    (chunks : List ChunkRow) (docs : List DocRow) (qe : List ℚ)
    (limit : ℕ) (threshold : ℚ) (docFilter : Option String) :
    (vectorSimilaritySearch dist chunks docs qe limit threshold docFilter).length ≤ limit ∧
    (vectorSimilaritySearch dist chunks docs qe limit threshold docFilter).length ≤
      (joinRows chunks docs).length ∧
    List.Pairwise (fun a b => b.score ≤ a.score)
      (vectorSimilaritySearch dist chunks docs qe limit threshold docFilter) ∧
    (∀ res ∈ vectorSimilaritySearch dist chunks docs qe limit threshold docFilter,
      ∃ cd ∈ joinRows chunks docs, ∃ e, cd.1.embedding = some e ∧
        (∀ x, docFilter = some x → cd.1.documentId = x) ∧
        res = toSearchResult dist qe cd ∧
        res.score = 1 - dist e qe ∧ threshold ≤ res.score) ∧
    ((vectorSimilaritySearch dist chunks docs qe limit threshold docFilter).length < limit →
      ∀ cd ∈ joinRows chunks docs, cd.1.embedding.isSome = true →
        docFilterOk docFilter cd.1 = true →
        threshold ≤ 1 - embDist dist qe cd.1 →
        toSearchResult dist qe cd ∈
          vectorSimilaritySearch dist chunks docs qe limit threshold docFilter) := by
  have hrel_total : IsTotal (ChunkRow × DocRow)
      (fun a b => embDist dist qe a.1 ≤ embDist dist qe b.1) :=
    ⟨fun a b => le_total _ _⟩
  have hrel_trans : IsTrans (ChunkRow × DocRow)
      (fun a b => embDist dist qe a.1 ≤ embDist dist qe b.1) :=
    ⟨fun _ _ _ hab hbc => le_trans hab hbc⟩
  rw [vectorSimilaritySearch_eq]
  refine ⟨?_, ?_, ?_, ?_, ?_⟩
  · rw [List.length_map, List.length_take]
    exact min_le_left _ _
  · rw [List.length_map, List.length_take]
    calc min limit _ ≤ _ := min_le_right _ _
      _ = _ := (List.perm_insertionSort _ _).length_eq
      _ ≤ (joinRows chunks docs).length := List.length_filter_le _ _
  · rw [List.pairwise_map]
    refine List.Pairwise.imp ?_
      (List.Pairwise.sublist (List.take_sublist _ _)
        (List.sorted_insertionSort _ _))
    intro a b hab
    simp only [toSearchResult]
    have := sub_le_sub_left hab (1 : ℚ)
    exact this
  · intro res hres
    obtain ⟨cd, hcdtake, rfl⟩ := List.mem_map.mp hres
    have hcdsorted := List.take_subset _ _ hcdtake
    have hcdcand := (List.mem_insertionSort _).mp hcdsorted
    obtain ⟨hcdrows, hpcd⟩ := List.mem_filter.mp hcdcand
    simp only [Bool.and_eq_true, decide_eq_true_eq] at hpcd
    obtain ⟨⟨hsome, hdoc⟩, hth⟩ := hpcd
    obtain ⟨e, he⟩ := Option.isSome_iff_exists.mp hsome
    refine ⟨cd, hcdrows, e, he, ?_, rfl, ?_, ?_⟩
    · intro x hx
      rw [hx] at hdoc
      simpa [docFilterOk] using hdoc
    · simp only [toSearchResult, embDist, he, Option.getD_some]
    · simpa only [toSearchResult] using hth
  · intro hlt cd hcd hsome hdoc hth
    rw [List.length_map, List.length_take] at hlt
    set sorted := ((joinRows chunks docs).filter fun cd =>
        cd.1.embedding.isSome && docFilterOk docFilter cd.1 &&
          decide (threshold ≤ 1 - embDist dist qe cd.1)).insertionSort
      (fun a b => embDist dist qe a.1 ≤ embDist dist qe b.1) with hsorted
    have hslen : sorted.length < limit := by
      rcases Nat.lt_or_ge sorted.length limit with h | h
      · exact h
      · rw [min_eq_left h] at hlt
        omega
    rw [List.take_of_length_le (le_of_lt hslen)]
    refine List.mem_map.mpr ⟨cd, ?_, rfl⟩
    rw [hsorted, List.mem_insertionSort]
    exact List.mem_filter.mpr ⟨hcd, by simp [hsome, hdoc, hth]⟩

/-- Concrete collaborators and rows for the search witnesses. -/
def distW : List ℚ → List ℚ → ℚ := fun _ _ => 0

def chunkW : ChunkRow :=
  { id := "c1", documentId := "d1", chunkText := "hello world",
    chunkIndex := 0, embedding := some [1], metadata := "m" }

def docW : DocRow := { id := "d1", title := "t", fileType := none }

theorem vectorSimilaritySearch_spec_witness :
    (vectorSimilaritySearch distW [chunkW] [docW] [1] 10 0 none).length ≤ 10 ∧
    toSearchResult distW [1] (chunkW, docW) ∈
      vectorSimilaritySearch distW [chunkW] [docW] [1] 10 0 none := by
  obtain ⟨h1, h2, _, _, h5⟩ :=
    vectorSimilaritySearch_spec distW [chunkW] [docW] [1] 10 0 none
  refine ⟨h1, h5 ?_ (chunkW, docW) ?_ ?_ ?_ ?_⟩
  · have hjr : (joinRows [chunkW] [docW]).length = 1 := by decide
    omega
  · decide
  · decide
  · decide
  · show (0 : ℚ) ≤ 1 - embDist distW [1] chunkW
    simp [embDist, distW]

/-- C2: hybrid search returns at most `limit` results (and no more than
there are joined rows), ranked by the fixed blend
`combined = 0.7 * vectorScore + 0.3 * lexicalScore` in descending order;
every result is drawn from a joined row with a non-null embedding that
matches the full-text query — rows with no lexical match are excluded
regardless of vector similarity — and the similarity threshold filters the
vector component only: every result has `similarity >= threshold`, and
(when the limit does not truncate) every row passing the lexical-match,
document-filter and vector-threshold tests appears, with no condition on
its lexical rank or blended score. -/
theorem performHybridSearch_spec (dist : List ℚ → List ℚ → ℚ)
    (tsMatch : String → String → Bool) (tsRank : String → String → ℚ)
    (chunks : List ChunkRow) (docs : List DocRow) (qe : List ℚ)
    (question : String) (limit : ℕ) (threshold : ℚ)
    (docFilter : Option String) :
    (performHybridSearch dist tsMatch tsRank chunks docs qe question limit threshold docFilter).length ≤ limit ∧
    (performHybridSearch dist tsMatch tsRank chunks docs qe question limit threshold docFilter).length ≤
      (joinRows chunks docs).length ∧
    List.Pairwise (fun a b => b.score ≤ a.score)
      (performHybridSearch dist tsMatch tsRank chunks docs qe question limit threshold docFilter) ∧
    (∀ res ∈ performHybridSearch dist tsMatch tsRank chunks docs qe question limit threshold docFilter,
      tsMatch res.chunkText question = true) ∧
    (∀ res ∈ performHybridSearch dist tsMatch tsRank chunks docs qe question limit threshold docFilter,
      ∃ cd ∈ joinRows chunks docs, ∃ e, cd.1.embedding = some e ∧
        tsMatch cd.1.chunkText question = true ∧
        (∀ x, docFilter = some x → cd.1.documentId = x) ∧
        res = toHybridResult dist tsRank qe question cd ∧
        res.similarity = 1 - dist e qe ∧ threshold ≤ res.similarity ∧
        res.score = (7 / 10) * res.similarity +
          (3 / 10) * tsRank cd.1.chunkText question) ∧
    ((performHybridSearch dist tsMatch tsRank chunks docs qe question limit threshold docFilter).length < limit →
      ∀ cd ∈ joinRows chunks docs, cd.1.embedding.isSome = true →
        tsMatch cd.1.chunkText question = true →
        docFilterOk docFilter cd.1 = true →
        threshold ≤ 1 - embDist dist qe cd.1 →
        toHybridResult dist tsRank qe question cd ∈
          performHybridSearch dist tsMatch tsRank chunks docs qe question limit threshold docFilter) := by
  have hrel_total : IsTotal (ChunkRow × DocRow)
      (fun a b => combinedScore dist tsRank qe question b ≤
        combinedScore dist tsRank qe question a) :=
    ⟨fun a b => (le_total _ _).symm⟩
  have hrel_trans : IsTrans (ChunkRow × DocRow)
      (fun a b => combinedScore dist tsRank qe question b ≤
        combinedScore dist tsRank qe question a) :=
    ⟨fun _ _ _ hab hbc => le_trans hbc hab⟩
  have heq : performHybridSearch dist tsMatch tsRank chunks docs qe question limit threshold docFilter =
      ((((joinRows chunks docs).filter fun cd =>
          cd.1.embedding.isSome && tsMatch cd.1.chunkText question &&
            docFilterOk docFilter cd.1 &&
            decide (threshold ≤ 1 - embDist dist qe cd.1)).insertionSort
        fun a b => combinedScore dist tsRank qe question b ≤
          combinedScore dist tsRank qe question a).take limit).map
        (toHybridResult dist tsRank qe question) := rfl
  rw [heq]
  refine ⟨?_, ?_, ?_, ?_, ?_, ?_⟩
  · rw [List.length_map, List.length_take]
    exact min_le_left _ _
  · rw [List.length_map, List.length_take]
    calc min limit _ ≤ _ := min_le_right _ _
      _ = _ := (List.perm_insertionSort _ _).length_eq
      _ ≤ (joinRows chunks docs).length := List.length_filter_le _ _
  · rw [List.pairwise_map]
    refine List.Pairwise.imp ?_
      (List.Pairwise.sublist (List.take_sublist _ _)
        (List.sorted_insertionSort _ _))
    intro a b hab
    simpa only [toHybridResult] using hab
  · intro res hres
    obtain ⟨cd, hcdtake, rfl⟩ := List.mem_map.mp hres
    have hcdcand := (List.mem_insertionSort _).mp (List.take_subset _ _ hcdtake)
    obtain ⟨_, hpcd⟩ := List.mem_filter.mp hcdcand
    simp only [Bool.and_eq_true, decide_eq_true_eq] at hpcd
    exact hpcd.1.1.2
  · intro res hres
    obtain ⟨cd, hcdtake, rfl⟩ := List.mem_map.mp hres
    have hcdcand := (List.mem_insertionSort _).mp (List.take_subset _ _ hcdtake)
    obtain ⟨hcdrows, hpcd⟩ := List.mem_filter.mp hcdcand
    simp only [Bool.and_eq_true, decide_eq_true_eq] at hpcd
    obtain ⟨⟨⟨hsome, hmatch⟩, hdoc⟩, hth⟩ := hpcd
    obtain ⟨e, he⟩ := Option.isSome_iff_exists.mp hsome
    refine ⟨cd, hcdrows, e, he, hmatch, ?_, rfl, ?_, ?_, ?_⟩
    · intro x hx
      rw [hx] at hdoc
      simpa [docFilterOk] using hdoc
    · simp only [toHybridResult, embDist, he, Option.getD_some]
    · simpa only [toHybridResult] using hth
    · simp only [toHybridResult, combinedScore]
  · intro hlt cd hcd hsome hmatch hdoc hth
    rw [List.length_map, List.length_take] at hlt
    set sorted := ((joinRows chunks docs).filter fun cd =>
        cd.1.embedding.isSome && tsMatch cd.1.chunkText question &&
          docFilterOk docFilter cd.1 &&
          decide (threshold ≤ 1 - embDist dist qe cd.1)).insertionSort
      (fun a b => combinedScore dist tsRank qe question b ≤
        combinedScore dist tsRank qe question a) with hsorted
    have hslen : sorted.length < limit := by
      rcases Nat.lt_or_ge sorted.length limit with h | h
      · exact h
      · rw [min_eq_left h] at hlt
        omega
    rw [List.take_of_length_le (le_of_lt hslen)]
    refine List.mem_map.mpr ⟨cd, ?_, rfl⟩
    rw [hsorted, List.mem_insertionSort]
    exact List.mem_filter.mpr ⟨hcd, by simp [hsome, hmatch, hdoc, hth]⟩

/-- Lexical collaborators for the C2 witness: `tsMatchW` holds exactly
when the question occurs verbatim in the chunk text. -/
def tsMatchW : String → String → Bool := fun t q => q == t

def tsRankW : String → String → ℚ := fun _ _ => 1

theorem performHybridSearch_spec_witness :
    (performHybridSearch distW tsMatchW tsRankW [chunkW] [docW] [1]
      "hello world" 10 0 none).length ≤ 10 ∧
    (∀ res ∈ performHybridSearch distW tsMatchW tsRankW [chunkW] [docW] [1]
      "hello world" 10 0 none, tsMatchW res.chunkText "hello world" = true) ∧
    toHybridResult distW tsRankW [1] "hello world" (chunkW, docW) ∈
      performHybridSearch distW tsMatchW tsRankW [chunkW] [docW] [1]
        "hello world" 10 0 none := by
  obtain ⟨h1, h2, _, h4, _, h6⟩ := performHybridSearch_spec distW tsMatchW tsRankW
    [chunkW] [docW] [1] "hello world" 10 0 none
  refine ⟨h1, h4, h6 ?_ (chunkW, docW) ?_ ?_ ?_ ?_ ?_⟩
  · have hjr : (joinRows [chunkW] [docW]).length = 1 := by decide
    omega
  · decide
  · decide
  · decide
  · decide
  · show (0 : ℚ) ≤ 1 - embDist distW [1] chunkW
    simp [embDist, distW]

/-- The `(documentId, chunkIndex)` conflict key of the chunk upsert. -/
def rowKey (r : ChunkRow) : String × ℕ := (r.documentId, r.chunkIndex)

/-- Models the `ON CONFLICT (document_id, chunk_index)` comparison. -/
def sameKey (a b : ChunkRow) : Bool :=
  a.documentId == b.documentId && a.chunkIndex == b.chunkIndex

/-- One `INSERT ... ON CONFLICT (document_id, chunk_index) DO UPDATE SET
chunk_text = EXCLUDED.chunk_text, embedding = EXCLUDED.embedding,
metadata = EXCLUDED.metadata`: a conflicting key overwrites text,
embedding and metadata in place (id and created_at keep their old
values); otherwise the row is inserted. -/
def upsertOne (t : List ChunkRow) (n : ChunkRow) : List ChunkRow :=
  if t.any (fun r => sameKey r n) then
    t.map fun r =>
      if sameKey r n then
        { r with chunkText := n.chunkText, embedding := n.embedding,
                 metadata := n.metadata }
      else r
  else t ++ [n]

/-- Models `#saveChunksWithEmbeddings`: the per-chunk insert loop. -/
def upsertChunks (t : List ChunkRow) (batch : List ChunkRow) : List ChunkRow :=
  batch.foldl upsertOne t

/-! ### Upsert lemmas and claim -/

lemma sameKey_iff (a b : ChunkRow) : sameKey a b = true ↔ rowKey a = rowKey b := by
  simp [sameKey, rowKey, Prod.ext_iff]

lemma upsertOne_any_iff (t : List ChunkRow) (n : ChunkRow) :
    (t.any fun r => sameKey r n) = true ↔ rowKey n ∈ t.map rowKey := by
  rw [List.any_eq_true]
  constructor
  · rintro ⟨r, hr, hk⟩
    exact List.mem_map.mpr ⟨r, hr, (sameKey_iff r n).mp hk⟩
  · rintro h
    obtain ⟨r, hr, hk⟩ := List.mem_map.mp h
    exact ⟨r, hr, (sameKey_iff r n).mpr hk⟩

lemma upsertOne_map_key (t : List ChunkRow) (n : ChunkRow)
    (h : rowKey n ∈ t.map rowKey) :
    (upsertOne t n).map rowKey = t.map rowKey := by
  rw [upsertOne, if_pos ((upsertOne_any_iff t n).mpr h), List.map_map]
  refine List.map_congr_left ?_
  intro r _
  by_cases hk : sameKey r n
  · simp [Function.comp, hk, rowKey]
  · simp [Function.comp, hk]

lemma upsertOne_overwrites (t : List ChunkRow) (n : ChunkRow)
    (h : rowKey n ∈ t.map rowKey) :
    ∃ r ∈ upsertOne t n, rowKey r = rowKey n ∧ r.chunkText = n.chunkText ∧
      r.embedding = n.embedding ∧ r.metadata = n.metadata := by
  obtain ⟨r0, hr0, hk0⟩ := List.mem_map.mp h
  rw [upsertOne, if_pos ((upsertOne_any_iff t n).mpr h)]
  refine ⟨{ r0 with
            chunkText := n.chunkText
            embedding := n.embedding
            metadata := n.metadata }, ?_, ?_, rfl, rfl, rfl⟩
  · exact List.mem_map.mpr ⟨r0, hr0, by rw [if_pos ((sameKey_iff r0 n).mpr hk0)]⟩
  · simpa [rowKey] using hk0

lemma upsertOne_preserves (t : List ChunkRow) (n r : ChunkRow) (hr : r ∈ t)
    (hne : rowKey r ≠ rowKey n) : r ∈ upsertOne t n := by
  rw [upsertOne]
  split_ifs
  · exact List.mem_map.mpr ⟨r, hr,
      by rw [if_neg fun hk => hne ((sameKey_iff r n).mp hk)]⟩
  · exact List.mem_append.mpr (Or.inl hr)

lemma upsertChunks_preserves (t : List ChunkRow) (batch : List ChunkRow)
    (r : ChunkRow) (hr : r ∈ t) (hne : ∀ b ∈ batch, rowKey r ≠ rowKey b) :
    r ∈ upsertChunks t batch := by
  induction batch generalizing t with
  | nil => exact hr
  | cons b rest ih =>
    exact ih (upsertOne t b)
      (upsertOne_preserves t b r hr (hne b (List.mem_cons_self b rest)))
      fun x hx => hne x (List.mem_cons_of_mem b hx)

/-- C5: chunk upsert is idempotent on `(documentId, chunkIndex)`.  When
every key of the incoming batch is already present, the key column of the
table is unchanged (so no duplicate rows are created and rows are
overwritten in place), the row count is unchanged, and for every batch
element the table afterwards holds a row with that key carrying the
batch element's chunk text, embedding and metadata. -/
theorem upsertChunks_idempotent_on_key (t batch : List ChunkRow)
    (hb : (batch.map rowKey).Nodup)
    (hsub : ∀ b ∈ batch, rowKey b ∈ t.map rowKey) :
    (upsertChunks t batch).map rowKey = t.map rowKey ∧
    (upsertChunks t batch).length = t.length ∧
    ∀ b ∈ batch, ∃ r ∈ upsertChunks t batch, rowKey r = rowKey b ∧
      r.chunkText = b.chunkText ∧ r.embedding = b.embedding ∧
      r.metadata = b.metadata := by
  induction batch generalizing t with
  | nil => exact ⟨rfl, rfl, by simp⟩
  | cons b rest ih =>
    have hstep : upsertChunks t (b :: rest) = upsertChunks (upsertOne t b) rest := rfl
    have hkb : rowKey b ∈ t.map rowKey := hsub b (List.mem_cons_self b rest)
    have hmap1 : (upsertOne t b).map rowKey = t.map rowKey :=
      upsertOne_map_key t b hkb
    rw [List.map_cons, List.nodup_cons] at hb
    have hbne : ∀ x ∈ rest, rowKey x ≠ rowKey b := by
      intro x hx hcontra
      exact hb.1 (List.mem_map.mpr ⟨x, hx, hcontra⟩)
    have hsub2 : ∀ x ∈ rest, rowKey x ∈ (upsertOne t b).map rowKey := by
      rw [hmap1]
      exact fun x hx => hsub x (List.mem_cons_of_mem b hx)
    obtain ⟨ih1, ih2, ih3⟩ := ih (upsertOne t b) hb.2 hsub2
    have hmapall : (upsertChunks t (b :: rest)).map rowKey = t.map rowKey := by
      rw [hstep, ih1, hmap1]
    refine ⟨hmapall, ?_, ?_⟩
    · have := congrArg List.length hmapall
      simpa [List.length_map] using this
    · intro x hx
      rcases List.mem_cons.mp hx with rfl | hx2
      · obtain ⟨r, hrmem, hrk, hrt, hre, hrm⟩ := upsertOne_overwrites t x hkb
        refine ⟨r, ?_, hrk, hrt, hre, hrm⟩
        rw [hstep]
        refine upsertChunks_preserves (upsertOne t x) rest r hrmem ?_
        intro y hy
        rw [hrk]
        exact fun hc => hbne y hy hc.symm
      · obtain ⟨r, hrmem, hrest⟩ := ih3 x hx2
        exact ⟨r, by rw [hstep]; exact hrmem, hrest⟩

/-- Rows for the C5 witness: a second ingestion of key `("d1", 0)` with
new text, embedding and metadata. -/
def rowOld : ChunkRow :=
  { id := "c1", documentId := "d1", chunkText := "old", chunkIndex := 0,
    embedding := some [1], metadata := "m0" }

def rowNew : ChunkRow :=
  { id := "c2", documentId := "d1", chunkText := "new", chunkIndex := 0,
    embedding := some [2], metadata := "m1" }

theorem upsertChunks_idempotent_on_key_witness :
    (upsertChunks [rowOld] [rowNew]).map rowKey = [rowOld].map rowKey ∧
    (upsertChunks [rowOld] [rowNew]).length = [rowOld].length ∧
    ∃ r ∈ upsertChunks [rowOld] [rowNew], rowKey r = rowKey rowNew ∧
      r.chunkText = rowNew.chunkText ∧ r.embedding = rowNew.embedding ∧
      r.metadata = rowNew.metadata := by
  obtain ⟨h1, h2, h3⟩ := upsertChunks_idempotent_on_key [rowOld] [rowNew]
    (by decide) (by decide)
  exact ⟨h1, h2, h3 rowNew (by decide)⟩

/-! ## 4. Cache: `RedisClient`, the cache interaction of
`SearchService.search` / `SearchService.hybridSearch`, and the
invalidation sweeps of `DocumentProcessingService` -/

/-- The state of the Redis collaborator as seen by `RedisClient`:
`ready` is `isReady()`, `entries` the stored key/value pairs (values are
serialized strings), `getFault`/`setFault` inject a transport failure
into the next `client.get` / `client.set` call. -/
structure CacheBackend where
  ready : Bool
  entries : List (String × String)
  getFault : Bool
  setFault : Bool
deriving DecidableEq, Repr

def lookupEntry (entries : List (String × String)) (key : String) :
    Option String :=
  (entries.find? fun kv => kv.1 == key).map Prod.snd

def insertEntry (entries : List (String × String)) (key value : String) :
    List (String × String) :=
  if entries.any fun kv => kv.1 == key then
    entries.map fun kv => if kv.1 == key then (kv.1, value) else kv
  else entries ++ [(key, value)]

/-- Models `RedisClient.get`: not-ready short-circuits to `null`; a transport
error is caught and returns `null`; a missing key returns `null`; a
stored value is `JSON.parse`d, and a parse failure is caught and returns
`null`.  Errors never escape. -/
def redisGet (parse : String → Option (List SearchResult))
    (b : CacheBackend) (key : String) : Option (List SearchResult) :=
  if !b.ready then none
  else if b.getFault then none
  else
    match lookupEntry b.entries key with
    | none => none
    | some s => parse s

/-- Models `RedisClient.set`: not-ready short-circuits to `false`; a transport
error is caught and returns `false` leaving the store unchanged;
otherwise the serialized value is stored (`setEx`) and `true` returned.
Errors never escape. -/
def redisSet (serialize : List SearchResult → String) (b : CacheBackend)
    (key : String) (v : List SearchResult) : CacheBackend × Bool :=
  if !b.ready then (b, false)
  else if b.setFault then (b, false)
  else ({ b with entries := insertEntry b.entries key (serialize v) }, true)

/-- The cache interaction of `SearchService.search` (after validation and
query embedding): cache lookup when `useCache`, early return on a hit,
otherwise `#vectorSimilaritySearch`, then a best-effort cache store
guarded by `useCache && results.length > 0`.  Returns the results and the
resulting cache state. -/
def searchModel (dist : List ℚ → List ℚ → ℚ)
    (parse : String → Option (List SearchResult))
    (serialize : List SearchResult → String) (b : CacheBackend)
    (key : String) (useCache : Bool) (chunks : List ChunkRow)
    (docs : List DocRow) (qe : List ℚ) (limit : ℕ) (threshold : ℚ)
    (docFilter : Option String) : List SearchResult × CacheBackend :=
  if useCache then
    match redisGet parse b key with
    | some cached => (cached, b)
    | none =>
      let results := vectorSimilaritySearch dist chunks docs qe limit threshold docFilter
      if 0 < results.length then (results, (redisSet serialize b key results).1)
      else (results, b)
  else (vectorSimilaritySearch dist chunks docs qe limit threshold docFilter, b)

/-- The cache interaction of `SearchService.hybridSearch`, with the same
lookup/store guards around `#performHybridSearch`. -/
def hybridModel (dist : List ℚ → List ℚ → ℚ)
    (tsMatch : String → String → Bool) (tsRank : String → String → ℚ)
    (parse : String → Option (List SearchResult))
    (serialize : List SearchResult → String) (b : CacheBackend)
    (key : String) (useCache : Bool) (chunks : List ChunkRow)
    (docs : List DocRow) (qe : List ℚ) (question : String) (limit : ℕ)
    (threshold : ℚ) (docFilter : Option String) :
    List SearchResult × CacheBackend :=
  if useCache then
    match redisGet parse b key with
    | some cached => (cached, b)
    | none =>
      let results := performHybridSearch dist tsMatch tsRank chunks docs qe
        question limit threshold docFilter
      if 0 < results.length then (results, (redisSet serialize b key results).1)
      else (results, b)
  else (performHybridSearch dist tsMatch tsRank chunks docs qe question limit
    threshold docFilter, b)

/-- Redis `KEYS` glob matching for the patterns the service uses
(a literal prefix followed by `*`, or a literal key). -/
def matchGlob (pat k : String) : Bool :=
  match pat.toList.reverse with
  | '*' :: rest => rest.reverse.isPrefixOf k.toList
  | _ => pat == k

/-- Models `RedisClient.delPattern` (the ready path): delete every key matching
the glob. -/
def delPattern (cache : List (String × String)) (pat : String) :
    List (String × String) :=
  cache.filter fun kv => !(matchGlob pat kv.1)

/-- Cache invalidation performed at the end of
`DocumentProcessingService.processDocument`: only
`delPattern('documents:*')`. -/
def processDocumentInvalidate (cache : List (String × String)) :
    List (String × String) :=
  delPattern cache "documents:*"

/-- Cache invalidation performed by
`DocumentProcessingService.deleteDocument`:
`delPattern('documents:*')` then `delPattern('search:*')`. -/
def deleteDocumentInvalidate (cache : List (String × String)) :
    List (String × String) :=
  delPattern (delPattern cache "documents:*") "search:*"

/-! ### Cache claims -/

/-- C4: cache errors are fail-open.  An unavailable connection or a
transport failure makes `RedisClient.get` return a miss (`null`), a
serialization (parse) failure of a stored value also reads as a miss, an
unavailable connection or transport failure makes `RedisClient.set` a
no-op returning `false` — never an error — and under a read fault both
`search` and `hybridSearch` still complete, returning exactly the vector
store's results. -/
theorem cache_fail_open (parse : String → Option (List SearchResult))
    (serialize : List SearchResult → String) (b : CacheBackend)
    (key : String) (v : List SearchResult) (dist : List ℚ → List ℚ → ℚ)
    (tsMatch : String → String → Bool) (tsRank : String → String → ℚ)
    (chunks : List ChunkRow) (docs : List DocRow) (qe : List ℚ)
    (question : String) (limit : ℕ) (threshold : ℚ)
    (docFilter : Option String) :
    ((b.ready = false ∨ b.getFault = true) → redisGet parse b key = none) ∧
    (∀ s, lookupEntry b.entries key = some s → parse s = none →
      redisGet parse b key = none) ∧
    ((b.ready = false ∨ b.setFault = true) →
      redisSet serialize b key v = (b, false)) ∧
    ((b.ready = false ∨ b.getFault = true) →
      (searchModel dist parse serialize b key true chunks docs qe limit
        threshold docFilter).1 =
        vectorSimilaritySearch dist chunks docs qe limit threshold docFilter) ∧
    ((b.ready = false ∨ b.getFault = true) →
      (hybridModel dist tsMatch tsRank parse serialize b key true chunks docs
        qe question limit threshold docFilter).1 =
        performHybridSearch dist tsMatch tsRank chunks docs qe question limit
          threshold docFilter) := by
  have hget : (b.ready = false ∨ b.getFault = true) →
      redisGet parse b key = none := by
    rintro (h | h) <;> simp [redisGet, h]
  refine ⟨hget, ?_, ?_, ?_, ?_⟩
  · intro s hs hp
    rcases hb : b.ready with _ | _
    · simp [redisGet, hb]
    · rcases hf : b.getFault with _ | _
      · simp [redisGet, hb, hf, hs, hp]
      · simp [redisGet, hb, hf]
  · rintro (h | h) <;> simp [redisSet, h]
  · intro h
    rw [searchModel]
    simp only [if_pos rfl, hget h]
    split_ifs <;> rfl
  · intro h
    rw [hybridModel]
    simp only [if_pos rfl, hget h]
    split_ifs <;> rfl

/-- Concrete faulty backend and serialization collaborators for the cache
witnesses. -/
def parseW : String → Option (List SearchResult) := fun _ => none

def serializeW : List SearchResult → String := fun _ => "s"

def faultyBackend : CacheBackend :=
  { ready := true, entries := [("k", "junk")], getFault := true,
    setFault := true }

theorem cache_fail_open_witness :
    redisGet parseW faultyBackend "k" = none ∧
    redisSet serializeW faultyBackend "k" [] = (faultyBackend, false) ∧
    (searchModel distW parseW serializeW faultyBackend "k" true [] [] [] 10 0
      none).1 = vectorSimilaritySearch distW [] [] [] 10 0 none ∧
    (hybridModel distW tsMatchW tsRankW parseW serializeW faultyBackend "k"
      true [] [] [] "q" 10 0 none).1 =
      performHybridSearch distW tsMatchW tsRankW [] [] [] "q" 10 0 none := by
  obtain ⟨h1, _, h3, h4, h5⟩ := cache_fail_open parseW serializeW faultyBackend
    "k" [] distW tsMatchW tsRankW [] [] [] "q" 10 0 none
  exact ⟨h1 (Or.inr rfl), h3 (Or.inr rfl), h4 (Or.inr rfl), h5 (Or.inr rfl)⟩

/-- C10: a cache miss that computes an empty result list performs no
cache write: both `search` and `hybridSearch` (with caching enabled)
return the empty list and leave the cache state exactly as it was, so a
repeated zero-result query reaches the store again. -/
theorem zero_result_queries_not_cached
    (dist : List ℚ → List ℚ → ℚ) (tsMatch : String → String → Bool)
    (tsRank : String → String → ℚ)
    (parse : String → Option (List SearchResult))
    (serialize : List SearchResult → String) (b : CacheBackend)
    (key : String) (chunks : List ChunkRow) (docs : List DocRow)
    (qe : List ℚ) (question : String) (limit : ℕ) (threshold : ℚ)
    (docFilter : Option String) :
    (redisGet parse b key = none →
      vectorSimilaritySearch dist chunks docs qe limit threshold docFilter = [] →
      searchModel dist parse serialize b key true chunks docs qe limit
        threshold docFilter = ([], b)) ∧
    (redisGet parse b key = none →
      performHybridSearch dist tsMatch tsRank chunks docs qe question limit
        threshold docFilter = [] →
      hybridModel dist tsMatch tsRank parse serialize b key true chunks docs
        qe question limit threshold docFilter = ([], b)) := by
  constructor
  · intro h1 h2
    rw [searchModel]
    simp [h1, h2]
  · intro h1 h2
    rw [hybridModel]
    simp [h1, h2]

def readyBackend : CacheBackend :=
  { ready := true, entries := [], getFault := false, setFault := false }

theorem zero_result_queries_not_cached_witness :
    searchModel distW parseW serializeW readyBackend "k" true [] [] [] 10 0
      none = ([], readyBackend) ∧
    hybridModel distW tsMatchW tsRankW parseW serializeW readyBackend "k"
      true [] [] [] "q" 10 0 none = ([], readyBackend) := by
  obtain ⟨h1, h2⟩ := zero_result_queries_not_cached distW tsMatchW tsRankW
    parseW serializeW readyBackend "k" [] [] [] "q" 10 0 none
  exact ⟨h1 (by decide) (by decide), h2 (by decide) (by decide)⟩

/-- C9 counterexample: `processDocument` invalidates only the
`documents:` prefix (`redisClient.delPattern('documents:*')` alone), so a
query-result entry in the `search:` prefix space survives reprocessing —
the claim that both entry classes are swept after every mutation fails
for the reprocessing path. -/
theorem processDocument_invalidation_counterexample :
    processDocumentInvalidate [("search:q1", "v")] = [("search:q1", "v")] ∧
    matchGlob "search:*" "search:q1" = true := by
  decide

/-- C9 (amended): `deleteDocument` sweeps both prefix spaces — afterwards
no document-listing (`documents:`) and no query-result (`search:`) entry
remains — while `processDocument` sweeps only the `documents:` prefix:
every non-`documents:` entry, in particular every `search:` entry,
survives reprocessing untouched. -/
theorem cache_invalidation_sweeps (cache : List (String × String)) :
    (∀ kv ∈ deleteDocumentInvalidate cache,
      matchGlob "documents:*" kv.1 = false ∧
      matchGlob "search:*" kv.1 = false) ∧
    (∀ kv ∈ processDocumentInvalidate cache,
      matchGlob "documents:*" kv.1 = false) ∧
    (∀ kv ∈ cache, matchGlob "documents:*" kv.1 = false →
      kv ∈ processDocumentInvalidate cache) := by
  refine ⟨?_, ?_, ?_⟩
  · intro kv hkv
    obtain ⟨h1, h2⟩ := List.mem_filter.mp hkv
    obtain ⟨_, h4⟩ := List.mem_filter.mp h1
    constructor
    · simpa using h4
    · simpa using h2
  · intro kv hkv
    obtain ⟨_, h⟩ := List.mem_filter.mp hkv
    simpa using h
  · intro kv hkv h
    exact List.mem_filter.mpr ⟨hkv, by simp [h]⟩

theorem cache_invalidation_sweeps_witness :
    (∀ kv ∈ deleteDocumentInvalidate
        [("documents:1", "a"), ("search:q", "b")],
      matchGlob "documents:*" kv.1 = false ∧
      matchGlob "search:*" kv.1 = false) ∧
    ("search:q", "b") ∈ processDocumentInvalidate
      [("documents:1", "a"), ("search:q", "b")] :=
  ⟨(cache_invalidation_sweeps [("documents:1", "a"), ("search:q", "b")]).1,
   (cache_invalidation_sweeps [("documents:1", "a"), ("search:q", "b")]).2.2
     ("search:q", "b") (by decide) (by decide)⟩

end SemanticSearch
